import Mathlib

/-!
Verification of the event subsystem of `tg-maid` (`src/event.rs`).

The in-memory `Registry<Registrant, Event>` holds
  * `relation : HashMap<Rc<Registrant>, Vec<Rc<Event>>>`,
  * `event_pool : Vec<Rc<Event>>` (kept sorted and deduplicated),
  * `cache : HashMap<Rc<Event>, Vec<Rc<Registrant>>>`.

Hash maps are embedded as association lists with a deterministic order:
insertion of a fresh key appends at the end, updating an existing key
keeps its position.  `Rc` sharing is identity-irrelevant for the values
proved about, so `Rc<T>` is embedded as `T`.

The `EventWatcher::start` scheduler loop (a `tokio::select!` between the
cancellation receiver and the interval tick) is embedded as a function of
the sequence of loop events, and the shutdown-sender error path
(`tx.send(0).unwrap_or_else(|_| panic!(..))`) as a function of whether a
receiver is still alive.
-/

section AList

variable {α β : Type} [DecidableEq α]

/-- `HashMap::get` on the association-list embedding. -/
def alistFind (k : α) : List (α × β) → Option β
  | [] => none
  | (k₀, v) :: rest => if k₀ = k then some v else alistFind k rest

/-- `HashMap::remove` on the association-list embedding. -/
def alistRemove (k : α) : List (α × β) → List (α × β)
  | [] => []
  | (k₀, v) :: rest =>
    if k₀ = k then alistRemove k rest else (k₀, v) :: alistRemove k rest

/-- `HashMap::insert` on the association-list embedding: replace in place,
or append a fresh key. -/
def alistInsert (k : α) (v : β) : List (α × β) → List (α × β)
  | [] => [(k, v)]
  | (k₀, v₀) :: rest =>
    if k₀ = k then (k, v) :: rest else (k₀, v₀) :: alistInsert k v rest

/-- `map.entry(k).and_modify(|e| e.extend_from_slice(new)).or_insert(new)`
from `Registry::register`, on the association-list embedding. -/
def alistEntryExtend (k : α) (new : List β) :
    List (α × List β) → List (α × List β)
  | [] => [(k, new)]
  | (k₀, v) :: rest =>
    if k₀ = k then (k₀, v ++ new) :: rest
    else (k₀, v) :: alistEntryExtend k new rest

end AList

section SortDedup

variable {α : Type} [LinearOrder α]

/-- `Vec::dedup`: remove consecutive repeated elements. -/
def dedupAdj : List α → List α
  | [] => []
  | [a] => [a]
  | a :: b :: rest =>
    if a = b then dedupAdj (b :: rest) else a :: dedupAdj (b :: rest)

/-- `vec.sort(); vec.dedup();` as used on the event pool. -/
def sortDedup (l : List α) : List α :=
  dedupAdj (l.insertionSort (· ≤ ·))

end SortDedup

section RegistryModel

variable {R E : Type} [DecidableEq R] [LinearOrder E]

/-- The in-memory `Registry` state (`src/event.rs`, lines 96-101). -/
structure Registry (R E : Type) where
  relation : List (R × List E)
  event_pool : List E
  cache : List (E × List R)
deriving DecidableEq

/-- `Registry::new` (lines 108-132): keep the relation, build the event
pool by flattening all subscription lists then sort + dedup, start with an
empty cache. -/
def Registry.new (relation : List (R × List E)) : Registry R E :=
  { relation := relation
    event_pool := sortDedup (relation.map Prod.snd).flatten
    cache := [] }

/-- `Registry::register` (lines 134-152): evict every event of the batch
from the cache, extend the pool with the batch then sort + dedup, and
append the batch to the registrant's subscription list (inserting the
registrant if absent — note `or_insert(events)` inserts even an empty
batch). -/
def Registry.register (reg : Registry R E) (registrant : R) (events : List E) :
    Registry R E :=
  { relation := alistEntryExtend registrant events reg.relation
    event_pool := sortDedup (reg.event_pool ++ events)
    cache := events.foldl (fun c e => alistRemove e c) reg.cache }

/-- `Registry::get_registrant_from_cache` (lines 154-159). -/
def Registry.get_registrant_from_cache (reg : Registry R E) (event : E) :
    Option (List R) :=
  alistFind event reg.cache

/-- The full scan of lines 168-182: every registrant whose subscription
list contains an entry equal to the queried event, in relation order. -/
def scanRegistrants (relation : List (R × List E)) (event : E) : List R :=
  relation.filterMap fun p => if event ∈ p.2 then some p.1 else none

/-- `Registry::find_registrants_by_event` (lines 161-191): return the
cached list on a hit; otherwise scan the relation, and only when at least
one registrant matched insert the result into the cache.  Returns the
resulting list together with the updated state (`&mut self`). -/
def Registry.find_registrants_by_event (reg : Registry R E) (event : E) :
    List R × Registry R E :=
  match reg.get_registrant_from_cache event with
  | some rs => (rs, reg)
  | none =>
    let registrants := scanRegistrants reg.relation event
    if registrants.isEmpty then ([], reg)
    else
      let reg₁ : Registry R E :=
        { reg with cache := alistInsert event registrants reg.cache }
      ((reg₁.get_registrant_from_cache event).getD [], reg₁)

/-- `Registry::pool` (lines 193-195). -/
def Registry.pool (reg : Registry R E) : List E :=
  reg.event_pool

/-- One externally visible operation on a registry. -/
inductive RegOp (R E : Type) where
  | register (r : R) (events : List E)
  | find (e : E)

/-- Apply one operation to the state (`pool` and
`get_registrant_from_cache` take `&self` and cannot change the state). -/
def Registry.applyOp (reg : Registry R E) : RegOp R E → Registry R E
  | .register r es => reg.register r es
  | .find e => (reg.find_registrants_by_event e).2

/-- The state reached from `Registry::new init` by a sequence of
operations. -/
def Registry.run (init : List (R × List E)) (ops : List (RegOp R E)) :
    Registry R E :=
  ops.foldl Registry.applyOp (Registry.new init)

/-- An operation's event batch is non-empty (a `find` has no batch). -/
def RegOp.batchNonempty : RegOp R E → Bool
  | .register _ es => !es.isEmpty
  | .find _ => true

/-- Cache coherence: every cache entry equals the current full scan of the
relation for its key, and is non-empty (empty results are never cached). -/
def CacheOK (reg : Registry R E) : Prop :=
  ∀ e rs, alistFind e reg.cache = some rs →
    rs = scanRegistrants reg.relation e ∧ rs ≠ []

/-- Pool coherence: the event pool is the sorted deduplication of the
union of all subscription lists of the relation. -/
def PoolOK (reg : Registry R E) : Prop :=
  reg.event_pool = sortDedup (reg.relation.map Prod.snd).flatten

end RegistryModel

section ScenarioStates

/-- The registry of `test_registry` (line 200) right after construction
with foo ↦ [1,2,3] and bar ↦ [9,2,8,1]. -/
def testRegistryS0 : Registry String Nat :=
  Registry.new [("foo", [1, 2, 3]), ("bar", [9, 2, 8, 1])]

/-- The state after the lookup of event 7 (line 208). -/
def testRegistryS1 : Registry String Nat :=
  (testRegistryS0.find_registrants_by_event 7).2

/-- The state after the lookup of event 8 (line 211). -/
def testRegistryS2 : Registry String Nat :=
  (testRegistryS1.find_registrants_by_event 8).2

/-- The state after the lookup of event 2 (line 214). -/
def testRegistryS3 : Registry String Nat :=
  (testRegistryS2.find_registrants_by_event 2).2

/-- The state after `register("baz", &[2, 6, 7])` (line 219). -/
def testRegistryS4 : Registry String Nat :=
  testRegistryS3.register "baz" [2, 6, 7]

end ScenarioStates

section WatcherModel

/-- One iteration of the scheduler loop of `EventWatcher::start` (lines
66-80): the `tokio::select!` either observes the cancellation value
(`rx.changed()` wins) or an interval tick fires, in which case the task is
invoked and its result — success or a logged error — does not affect the
loop.  A run of the loop is driven by the sequence of such outcomes. -/
inductive LoopEvent where
  | cancel
  | tick (succeeded : Bool)
deriving DecidableEq

/-- How many times the scheduler loop of `EventWatcher::start` invokes
the task, given the sequence of select outcomes: a tick invokes the task
and continues (even on a task error, which is only logged, lines 75-77);
receipt of the cancellation value breaks out of the loop (lines 71-73), so
nothing after it is serviced. -/
def loopInvocations : List LoopEvent → Nat
  | [] => 0
  | .cancel :: _ => 0
  | .tick _ :: rest => loopInvocations rest + 1

/-- Outcome of the shutdown listener's send (lines 85-90). -/
inductive SendOutcome where
  | ok
  | panicked
deriving DecidableEq

/-- `tx.send(0).unwrap_or_else(|_| panic!(...))` (lines 88-89): a watch
channel send fails exactly when every receiver has been dropped (the
scheduler loop has exited), and on that failure the closure panics. -/
def shutdownSend (receiverAlive : Bool) : SendOutcome :=
  if receiverAlive then .ok else .panicked

end WatcherModel

section AListLemmas

variable {α β : Type} [DecidableEq α]

theorem alistFind_insert_self (k : α) (v : β) :
    ∀ l : List (α × β), alistFind k (alistInsert k v l) = some v
  | [] => by simp [alistInsert, alistFind]
  | (k₀, v₀) :: rest => by
    by_cases h : k₀ = k
    · simp [alistInsert, h, alistFind]
    · simp [alistInsert, h, alistFind, alistFind_insert_self k v rest]

theorem alistFind_insert_of_ne {k₁ k : α} (v : β) (h : k₁ ≠ k) :
    ∀ l : List (α × β), alistFind k (alistInsert k₁ v l) = alistFind k l
  | [] => by simp [alistInsert, alistFind, h]
  | (k₀, v₀) :: rest => by
    by_cases h₀ : k₀ = k₁
    · subst h₀
      simp [alistInsert, alistFind, h]
    · simp [alistInsert, h₀, alistFind, alistFind_insert_of_ne v h rest]

theorem alistFind_remove_self (k : α) :
    ∀ l : List (α × β), alistFind k (alistRemove k l) = none
  | [] => by simp [alistRemove, alistFind]
  | (k₀, v₀) :: rest => by
    by_cases h : k₀ = k
    · simp [alistRemove, h, alistFind_remove_self k rest]
    · simp [alistRemove, h, alistFind, alistFind_remove_self k rest]

theorem alistFind_remove_of_ne {k₁ k : α} (h : k₁ ≠ k) :
    ∀ l : List (α × β), alistFind k (alistRemove k₁ l) = alistFind k l
  | [] => by simp [alistRemove]
  | (k₀, v₀) :: rest => by
    by_cases h₀ : k₀ = k₁
    · subst h₀
      simp [alistRemove, alistFind, h, alistFind_remove_of_ne h rest]
    · simp [alistRemove, h₀, alistFind, alistFind_remove_of_ne h rest]

theorem alistFind_foldRemove (k : α) :
    ∀ (es : List α) (l : List (α × β)),
      alistFind k (es.foldl (fun c e => alistRemove e c) l) =
        if k ∈ es then none else alistFind k l
  | [], l => by simp
  | a :: es, l => by
    rw [List.foldl_cons, alistFind_foldRemove k es (alistRemove a l)]
    by_cases hmem : k ∈ es
    · simp [hmem, List.mem_cons]
    · by_cases hak : a = k
      · subst hak
        simp [hmem, alistFind_remove_self]
      · have hcons : ¬ k ∈ a :: es := by
          simp only [List.mem_cons]
          rintro (rfl | hk)
          · exact hak rfl
          · exact hmem hk
        simp [hmem, hcons, alistFind_remove_of_ne hak l]

end AListLemmas

section SortDedupLemmas

variable {α : Type} [LinearOrder α]

theorem mem_dedupAdj : ∀ (l : List α) (a : α), a ∈ dedupAdj l ↔ a ∈ l
  | [], a => by simp [dedupAdj]
  | [b], a => by simp [dedupAdj]
  | b :: c :: rest, a => by
    by_cases h : b = c
    · subst h
      rw [dedupAdj, if_pos rfl, mem_dedupAdj (b :: rest) a]
      simp only [List.mem_cons]
      tauto
    · rw [dedupAdj, if_neg h, List.mem_cons, mem_dedupAdj (c :: rest) a]
      simp only [List.mem_cons]

theorem dedupAdj_sorted :
    ∀ l : List α, l.Sorted (· ≤ ·) → (dedupAdj l).Sorted (· < ·)
  | [], _ => by simp [dedupAdj]
  | [a], _ => by simp [dedupAdj]
  | a :: b :: rest, h => by
    have hab : a ≤ b := List.rel_of_sorted_cons h b (List.mem_cons_self b rest)
    have htail : (b :: rest).Sorted (· ≤ ·) := h.of_cons
    have ih := dedupAdj_sorted (b :: rest) htail
    by_cases hEq : a = b
    · rw [dedupAdj, if_pos hEq]
      exact ih
    · rw [dedupAdj, if_neg hEq]
      refine List.sorted_cons.2 ⟨?_, ih⟩
      intro x hx
      have hx₁ : x ∈ b :: rest := (mem_dedupAdj _ x).1 hx
      have hb : a < b := lt_of_le_of_ne hab hEq
      rcases List.mem_cons.1 hx₁ with rfl | hx₂
      · exact hb
      · exact lt_of_lt_of_le hb (List.rel_of_sorted_cons htail x hx₂)

theorem mem_sortDedup {l : List α} {a : α} : a ∈ sortDedup l ↔ a ∈ l := by
  rw [sortDedup, mem_dedupAdj]
  exact (List.perm_insertionSort _ l).mem_iff

theorem sortDedup_sorted (l : List α) : (sortDedup l).Sorted (· < ·) :=
  dedupAdj_sorted _ (List.sorted_insertionSort _ l)

theorem sortDedup_congr {l₁ l₂ : List α} (h : ∀ a, a ∈ l₁ ↔ a ∈ l₂) :
    sortDedup l₁ = sortDedup l₂ := by
  have hs₁ := sortDedup_sorted l₁
  have hs₂ := sortDedup_sorted l₂
  have hperm : List.Perm (sortDedup l₁) (sortDedup l₂) := by
    refine (List.perm_ext_iff_of_nodup hs₁.nodup hs₂.nodup).2 ?_
    intro a
    rw [mem_sortDedup, mem_sortDedup]
    exact h a
  exact List.eq_of_perm_of_sorted hperm hs₁ hs₂

end SortDedupLemmas

section ScanLemmas

variable {R E : Type} [DecidableEq R] [LinearOrder E]

theorem scanRegistrants_cons (p : R × List E) (rel : List (R × List E)) (e : E) :
    scanRegistrants (p :: rel) e =
      if e ∈ p.2 then p.1 :: scanRegistrants rel e else scanRegistrants rel e := by
  by_cases h : e ∈ p.2 <;>
    simp [scanRegistrants, List.filterMap_cons, h]

theorem mem_scanRegistrants {rel : List (R × List E)} {e : E} {a : R} :
    a ∈ scanRegistrants rel e ↔ ∃ p ∈ rel, p.1 = a ∧ e ∈ p.2 := by
  simp only [scanRegistrants, List.mem_filterMap]
  constructor
  · rintro ⟨p, hp, hf⟩
    by_cases h : e ∈ p.2
    · rw [if_pos h] at hf
      exact ⟨p, hp, Option.some.inj hf, h⟩
    · rw [if_neg h] at hf
      exact absurd hf (Option.noConfusion)
  · rintro ⟨p, hp, rfl, h⟩
    exact ⟨p, hp, if_pos h⟩

theorem scanRegistrants_eq_nil {rel : List (R × List E)} {e : E}
    (h : ∀ p ∈ rel, e ∉ p.2) : scanRegistrants rel e = [] := by
  rw [scanRegistrants, List.filterMap_eq_nil_iff]
  intro p hp
  rw [if_neg (h p hp)]

theorem scan_entryExtend_of_not_mem :
    ∀ (rel : List (R × List E)) (r : R) (es : List E) (e : E), e ∉ es →
      scanRegistrants (alistEntryExtend r es rel) e = scanRegistrants rel e
  | [], r, es, e, h => by
    rw [alistEntryExtend, scanRegistrants_cons]
    simp [scanRegistrants, h]
  | (k₀, v) :: rest, r, es, e, h => by
    by_cases hk : k₀ = r
    · rw [alistEntryExtend, if_pos hk, scanRegistrants_cons, scanRegistrants_cons]
      have hmem : (e ∈ v ++ es) ↔ e ∈ v := by
        simp [List.mem_append, h]
      by_cases hv : e ∈ v
      · rw [if_pos (hmem.2 hv), if_pos hv]
      · rw [if_neg (fun hc => hv (hmem.1 hc)), if_neg hv]
    · rw [alistEntryExtend, if_neg hk, scanRegistrants_cons, scanRegistrants_cons,
        scan_entryExtend_of_not_mem rest r es e h]

theorem entryExtend_mem_self :
    ∀ (rel : List (R × List E)) (r : R) (es : List E),
      ∃ p ∈ alistEntryExtend r es rel, p.1 = r ∧ ∀ x ∈ es, x ∈ p.2
  | [], r, es => ⟨(r, es), by rw [alistEntryExtend]; exact List.mem_singleton_self _,
      rfl, fun x hx => hx⟩
  | (k₀, v) :: rest, r, es => by
    by_cases hk : k₀ = r
    · refine ⟨(k₀, v ++ es), ?_, hk, fun x hx => List.mem_append.2 (Or.inr hx)⟩
      rw [alistEntryExtend, if_pos hk]
      exact List.mem_cons_self _ _
    · obtain ⟨p, hp, h₁, h₂⟩ := entryExtend_mem_self rest r es
      refine ⟨p, ?_, h₁, h₂⟩
      rw [alistEntryExtend, if_neg hk]
      exact List.mem_cons_of_mem _ hp

theorem mem_flatten_entryExtend :
    ∀ (rel : List (R × List E)) (r : R) (es : List E) (a : E),
      (a ∈ ((alistEntryExtend r es rel).map Prod.snd).flatten ↔
        a ∈ (rel.map Prod.snd).flatten ∨ a ∈ es)
  | [], r, es, a => by simp [alistEntryExtend]
  | (k₀, v) :: rest, r, es, a => by
    by_cases hk : k₀ = r
    · rw [alistEntryExtend, if_pos hk]
      simp only [List.map_cons, List.flatten_cons, List.mem_append]
      tauto
    · rw [alistEntryExtend, if_neg hk]
      simp only [List.map_cons, List.flatten_cons, List.mem_append,
        mem_flatten_entryExtend rest r es a]
      tauto

end ScanLemmas

section RegistryLemmas

variable {R E : Type} [DecidableEq R] [LinearOrder E]

theorem find_snd_relation (reg : Registry R E) (e : E) :
    ((reg.find_registrants_by_event e).2).relation = reg.relation := by
  rw [Registry.find_registrants_by_event]
  cases reg.get_registrant_from_cache e with
  | some rs => rfl
  | none =>
    by_cases h : (scanRegistrants reg.relation e).isEmpty <;> simp [h]

theorem find_snd_event_pool (reg : Registry R E) (e : E) :
    ((reg.find_registrants_by_event e).2).event_pool = reg.event_pool := by
  rw [Registry.find_registrants_by_event]
  cases reg.get_registrant_from_cache e with
  | some rs => rfl
  | none =>
    by_cases h : (scanRegistrants reg.relation e).isEmpty <;> simp [h]

theorem find_fst_of_cacheOK {reg : Registry R E} (hc : CacheOK reg) (e : E) :
    (reg.find_registrants_by_event e).1 = scanRegistrants reg.relation e := by
  rw [Registry.find_registrants_by_event]
  rcases hfind : reg.get_registrant_from_cache e with _ | rs
  · by_cases h : (scanRegistrants reg.relation e).isEmpty
    · simp only [h, if_pos]
      exact (List.isEmpty_iff.1 h).symm
    · simp only [h, if_neg, Bool.false_eq_true, not_false_iff]
      show (Registry.get_registrant_from_cache _ e).getD [] = _
      rw [Registry.get_registrant_from_cache, alistFind_insert_self]
      rfl
  · exact ((hc e rs hfind).1 : rs = _)

theorem cacheOK_new (init : List (R × List E)) : CacheOK (Registry.new init) := by
  intro e rs h
  exact absurd h (by rw [Registry.new]; exact Option.noConfusion)

theorem cacheOK_register {reg : Registry R E} (hc : CacheOK reg) (r : R)
    (es : List E) : CacheOK (reg.register r es) := by
  intro e rs h
  rw [Registry.register] at h
  simp only at h
  rw [alistFind_foldRemove] at h
  by_cases hmem : e ∈ es
  · rw [if_pos hmem] at h
    exact absurd h Option.noConfusion
  · rw [if_neg hmem] at h
    obtain ⟨h₁, h₂⟩ := hc e rs h
    refine ⟨?_, h₂⟩
    rw [Registry.register]
    simp only
    rw [scan_entryExtend_of_not_mem reg.relation r es e hmem]
    exact h₁

theorem cacheOK_find {reg : Registry R E} (hc : CacheOK reg) (e : E) :
    CacheOK ((reg.find_registrants_by_event e).2) := by
  rw [Registry.find_registrants_by_event]
  rcases hfind : reg.get_registrant_from_cache e with _ | rs
  · by_cases h : (scanRegistrants reg.relation e).isEmpty
    · simpa [h] using hc
    · simp only [h, Bool.false_eq_true, if_neg, not_false_iff]
      intro x rs hx
      simp only at hx
      by_cases hxe : e = x
      · subst hxe
        rw [alistFind_insert_self] at hx
        have hrs : scanRegistrants reg.relation e = rs := Option.some.inj hx
        refine ⟨hrs.symm, ?_⟩
        intro hnil
        rw [hrs, hnil] at h
        exact h rfl
      · rw [alistFind_insert_of_ne _ hxe] at hx
        exact hc x rs hx
  · simpa using hc

theorem poolOK_new (init : List (R × List E)) : PoolOK (Registry.new init) := rfl

theorem poolOK_register {reg : Registry R E} (hp : PoolOK reg) (r : R)
    (es : List E) : PoolOK (reg.register r es) := by
  show sortDedup (reg.event_pool ++ es) =
    sortDedup ((alistEntryExtend r es reg.relation).map Prod.snd).flatten
  refine sortDedup_congr fun a => ?_
  rw [mem_flatten_entryExtend, List.mem_append, hp, mem_sortDedup]

theorem poolOK_find {reg : Registry R E} (hp : PoolOK reg) (e : E) :
    PoolOK ((reg.find_registrants_by_event e).2) := by
  rw [PoolOK, find_snd_relation, find_snd_event_pool]
  exact hp

theorem cacheOK_applyOp {reg : Registry R E} (hc : CacheOK reg)
    (op : RegOp R E) : CacheOK (reg.applyOp op) := by
  cases op with
  | register r es => exact cacheOK_register hc r es
  | find e => exact cacheOK_find hc e

theorem poolOK_applyOp {reg : Registry R E} (hp : PoolOK reg)
    (op : RegOp R E) : PoolOK (reg.applyOp op) := by
  cases op with
  | register r es => exact poolOK_register hp r es
  | find e => exact poolOK_find hp e

theorem foldl_applyOp_inv (P : Registry R E → Prop)
    (step : ∀ (s : Registry R E) (op : RegOp R E), P s → P (s.applyOp op)) :
    ∀ (ops : List (RegOp R E)) (s : Registry R E), P s →
      P (ops.foldl Registry.applyOp s)
  | [], _, h => h
  | op :: ops, s, h =>
    foldl_applyOp_inv P step ops (s.applyOp op) (step s op h)

theorem cacheOK_run (init : List (R × List E)) (ops : List (RegOp R E)) :
    CacheOK (Registry.run init ops) :=
  foldl_applyOp_inv CacheOK (fun _ op h => cacheOK_applyOp h op) ops _
    (cacheOK_new init)

theorem poolOK_run (init : List (R × List E)) (ops : List (RegOp R E)) :
    PoolOK (Registry.run init ops) :=
  foldl_applyOp_inv PoolOK (fun _ op h => poolOK_applyOp h op) ops _
    (poolOK_new init)

theorem entryExtend_nonempty :
    ∀ (rel : List (R × List E)) (r : R) (es : List E), es ≠ [] →
      (∀ p ∈ rel, p.2 ≠ []) → ∀ p ∈ alistEntryExtend r es rel, p.2 ≠ []
  | [], r, es, hes, _ => by
    intro p hp
    rw [alistEntryExtend] at hp
    rcases List.mem_singleton.1 hp with rfl
    exact hes
  | (k₀, v) :: rest, r, es, hes, hrel => by
    intro p hp
    rw [alistEntryExtend] at hp
    by_cases hk : k₀ = r
    · rw [if_pos hk] at hp
      rcases List.mem_cons.1 hp with rfl | hp₂
      · intro hnil
        exact hes (List.append_eq_nil.1 hnil).2
      · exact hrel p (List.mem_cons_of_mem _ hp₂)
    · rw [if_neg hk] at hp
      rcases List.mem_cons.1 hp with rfl | hp₂
      · exact hrel _ (List.mem_cons_self _ _)
      · exact entryExtend_nonempty rest r es hes
          (fun q hq => hrel q (List.mem_cons_of_mem _ hq)) p hp₂

theorem relNonempty_applyOp {reg : Registry R E}
    (h : ∀ p ∈ reg.relation, p.2 ≠ []) (op : RegOp R E)
    (hop : op.batchNonempty = true) :
    ∀ p ∈ (reg.applyOp op).relation, p.2 ≠ [] := by
  cases op with
  | register r es =>
    have hes : es ≠ [] := by
      intro hnil
      rw [RegOp.batchNonempty, hnil] at hop
      simp at hop
    exact entryExtend_nonempty reg.relation r es hes h
  | find e =>
    rw [Registry.applyOp, find_snd_relation]
    exact h

theorem foldl_applyOp_inv_cond (P : Registry R E → Prop)
    (step : ∀ (s : Registry R E) (op : RegOp R E),
      op.batchNonempty = true → P s → P (s.applyOp op)) :
    ∀ (ops : List (RegOp R E)) (s : Registry R E),
      (∀ op ∈ ops, op.batchNonempty = true) → P s →
      P (ops.foldl Registry.applyOp s)
  | [], _, _, h => h
  | op :: ops, s, hops, h =>
    foldl_applyOp_inv_cond P step ops (s.applyOp op)
      (fun o ho => hops o (List.mem_cons_of_mem _ ho))
      (step s op (hops op (List.mem_cons_self _ _)) h)

end RegistryLemmas

section Claims

variable {R E : Type} [DecidableEq R] [LinearOrder E]

/-- C1: for every sequence of registry operations, every cache entry for
an event is either absent or exactly the list a full scan of the relation
would currently produce for that event, and after any `register` call the
next `find_registrants_by_event` returns the current (updated) registrant
set for the queried event, never a stale cached value. -/
theorem spec_c1 (init : List (R × List E)) (ops : List (RegOp R E)) :
    (∀ e : E, alistFind e (Registry.run init ops).cache = none ∨
      alistFind e (Registry.run init ops).cache =
        some (scanRegistrants (Registry.run init ops).relation e)) ∧
    (∀ (r : R) (es : List E) (x : E),
      (((Registry.run init ops).register r es).find_registrants_by_event x).1 =
        scanRegistrants ((Registry.run init ops).register r es).relation x) := by
  have hc := cacheOK_run init ops
  constructor
  · intro e
    rcases hfind : alistFind e (Registry.run init ops).cache with _ | rs
    · exact Or.inl rfl
    · exact Or.inr (congrArg some (hc e rs hfind).1)
  · intro r es x
    exact find_fst_of_cacheOK (cacheOK_register hc r es) x

/-- C2: after construction the event pool equals the sorted deduplication
of all events of the initial relation, and after every sequence of
operations the pool equals the sorted deduplication of the union of all
subscription lists of the current relation. -/
theorem spec_c2 (init : List (R × List E)) (ops : List (RegOp R E)) :
    (Registry.new init).event_pool = sortDedup ((init.map Prod.snd).flatten) ∧
    (Registry.run init ops).event_pool =
      sortDedup (((Registry.run init ops).relation.map Prod.snd).flatten) :=
  ⟨rfl, poolOK_run init ops⟩

/-- C3: on every reachable state, `find_registrants_by_event` returns
exactly the registrants whose subscription list contains the queried
event; in particular after `register r [x]` the lookup of `x` contains `r`
and the pool contains `x`. -/
theorem spec_c3 (init : List (R × List E)) (ops : List (RegOp R E)) :
    (∀ (e : E) (a : R),
      a ∈ ((Registry.run init ops).find_registrants_by_event e).1 ↔
        ∃ p ∈ (Registry.run init ops).relation, p.1 = a ∧ e ∈ p.2) ∧
    (∀ (r : R) (x : E),
      r ∈ (((Registry.run init ops).register r [x]).find_registrants_by_event x).1 ∧
      x ∈ ((Registry.run init ops).register r [x]).pool) := by
  have hc := cacheOK_run init ops
  constructor
  · intro e a
    rw [find_fst_of_cacheOK hc, mem_scanRegistrants]
  · intro r x
    constructor
    · rw [find_fst_of_cacheOK (cacheOK_register hc r [x]), mem_scanRegistrants]
      obtain ⟨p, hp, h₁, h₂⟩ :=
        entryExtend_mem_self (Registry.run init ops).relation r [x]
      exact ⟨p, hp, h₁, h₂ x (List.mem_singleton_self x)⟩
    · show x ∈ sortDedup ((Registry.run init ops).event_pool ++ [x])
      rw [mem_sortDedup]
      exact List.mem_append.2 (Or.inr (List.mem_singleton_self x))

/-- C4 (counterexample to the claim as stated): `register` with an empty
event batch and an absent registrant inserts a relation entry whose event
list is empty, because `or_insert(events)` inserts the batch as given. -/
theorem spec_c4_counterexample :
    ((Registry.new ([] : List (Nat × List Nat))).register 0 []).relation =
      [(0, [])] := rfl

/-- C4 (amended): provided every subscription list of the initial relation
is non-empty and every `register` call has a non-empty event batch, every
relation entry of the reached state has a non-empty event list. -/
theorem spec_c4_amended (init : List (R × List E)) (ops : List (RegOp R E))
    (hinit : ∀ p ∈ init, p.2 ≠ [])
    (hops : ∀ op ∈ ops, op.batchNonempty = true) :
    ∀ p ∈ (Registry.run init ops).relation, p.2 ≠ [] :=
  foldl_applyOp_inv_cond (fun reg => ∀ p ∈ reg.relation, p.2 ≠ [])
    (fun _ op hop h => relNonempty_applyOp h op hop) ops _ hops hinit

/-- C4 witness: the amended statement applied to a concrete run. -/
theorem spec_c4_amended_witness :
    (∀ p ∈ [((0 : Nat), [(1 : Nat)])], p.2 ≠ []) ∧
    (∀ op ∈ [RegOp.register (1 : Nat) [(2 : Nat)]], op.batchNonempty = true) ∧
    ∀ p ∈ (Registry.run [((0 : Nat), [(1 : Nat)])]
        [RegOp.register 1 [2]]).relation, p.2 ≠ [] :=
  ⟨by decide, by decide,
    spec_c4_amended [((0 : Nat), [(1 : Nat)])] [RegOp.register 1 [2]]
      (by decide) (by decide)⟩

/-- C5 (counterexample to the claim as stated): when every receiver has
been dropped, the shutdown listener's `tx.send(0).unwrap_or_else(|_|
panic!(..))` panics instead of logging or ignoring the failure. -/
theorem spec_c5_counterexample : shutdownSend false = SendOutcome.panicked :=
  rfl

/-- C5 (amended): the cancellation send succeeds while a receiver is
alive, and panics in the shutdown-listener task (rather than being logged
or ignored) once the receiving side has been dropped. -/
theorem spec_c5_amended :
    shutdownSend true = SendOutcome.ok ∧
    shutdownSend false = SendOutcome.panicked :=
  ⟨rfl, rfl⟩

/-- C6: if the cancellation value is observed before any tick, the task is
invoked zero times; if it is observed after `n` ticks (each succeeding or
failing arbitrarily), the task was invoked exactly `n` times and is never
invoked again, whatever would have come after. -/
theorem spec_c6 (results : List Bool) (rest : List LoopEvent) :
    loopInvocations (LoopEvent.cancel :: rest) = 0 ∧
    loopInvocations (results.map LoopEvent.tick ++ LoopEvent.cancel :: rest) =
      results.length := by
  refine ⟨rfl, ?_⟩
  induction results with
  | nil => rfl
  | cons b bs ih => simp [loopInvocations, ih]

/-- C7: querying an event no registrant subscribes to returns the empty
list (not an error) and leaves the registry state — in particular the
cache — unchanged, so repeated queries never create a cache key for it. -/
theorem spec_c7 (init : List (R × List E)) (ops : List (RegOp R E)) (e : E)
    (h : ∀ p ∈ (Registry.run init ops).relation, e ∉ p.2) :
    ((Registry.run init ops).find_registrants_by_event e).1 = [] ∧
    ((Registry.run init ops).find_registrants_by_event e).2 =
      Registry.run init ops := by
  have hscan : scanRegistrants (Registry.run init ops).relation e = [] :=
    scanRegistrants_eq_nil h
  have hnone : (Registry.run init ops).get_registrant_from_cache e = none := by
    rcases hfind : alistFind e (Registry.run init ops).cache with _ | rs
    · exact hfind
    · obtain ⟨h₁, h₂⟩ := cacheOK_run init ops e rs hfind
      rw [hscan] at h₁
      exact absurd h₁ h₂
  rw [Registry.find_registrants_by_event, hnone]
  simp [hscan]

/-- C7 witness: the theorem applied to a concrete never-subscribed event. -/
theorem spec_c7_witness :
    (∀ p ∈ (Registry.run [((0 : Nat), [(1 : Nat)])]
        ([] : List (RegOp Nat Nat))).relation, (2 : Nat) ∉ p.2) ∧
    ((Registry.run [((0 : Nat), [(1 : Nat)])]
        ([] : List (RegOp Nat Nat))).find_registrants_by_event 2).1 = [] ∧
    ((Registry.run [((0 : Nat), [(1 : Nat)])]
        ([] : List (RegOp Nat Nat))).find_registrants_by_event 2).2 =
      Registry.run [((0 : Nat), [(1 : Nat)])] ([] : List (RegOp Nat Nat)) :=
  ⟨by decide, spec_c7 [((0 : Nat), [(1 : Nat)])] ([] : List (RegOp Nat Nat))
    2 (by decide)⟩

/-- C8: the concrete scenario of the reference test: construction with
foo ↦ [1,2,3] and bar ↦ [9,2,8,1], the three lookups, the registration of
baz ↦ [2,6,7], the refreshed pool, the recomputed lookup of event 2 and
the two cache sizes. -/
theorem spec_c8 :
    testRegistryS0.pool = [1, 2, 3, 8, 9] ∧
    (testRegistryS0.find_registrants_by_event 7).1 = [] ∧
    (testRegistryS1.find_registrants_by_event 8).1 = ["bar"] ∧
    "foo" ∈ (testRegistryS2.find_registrants_by_event 2).1 ∧
    "bar" ∈ (testRegistryS2.find_registrants_by_event 2).1 ∧
    testRegistryS3.cache.length = 2 ∧
    testRegistryS4.pool = [1, 2, 3, 6, 7, 8, 9] ∧
    "foo" ∈ (testRegistryS4.find_registrants_by_event 2).1 ∧
    "bar" ∈ (testRegistryS4.find_registrants_by_event 2).1 ∧
    ((testRegistryS4.find_registrants_by_event 2).2).cache.length = 2 := by
  decide

/-- C9: `pool` is a pure read: any number of intervening
`find_registrants_by_event` calls leaves the pool unchanged, so repeated
`pool` calls with no intervening `register` return identical ordered
lists. -/
theorem spec_c9 (s : Registry R E) (es : List E) :
    (es.foldl (fun t e => (t.find_registrants_by_event e).2) s).pool =
      s.pool := by
  induction es generalizing s with
  | nil => rfl
  | cons e es ih =>
    rw [List.foldl_cons, ih]
    exact find_snd_event_pool s e

/-- C10: `find_registrants_by_event` mutates only the cache: on every
state and every queried event the relation and the event pool of the
resulting state are unchanged. -/
theorem spec_c10 (s : Registry R E) (e : E) :
    ((s.find_registrants_by_event e).2).relation = s.relation ∧
    ((s.find_registrants_by_event e).2).event_pool = s.event_pool :=
  ⟨find_snd_relation s e, find_snd_event_pool s e⟩

end Claims
